import Mathlib

/-!
# examples/simple: `main.cpp`, `utils.h`, `config.h`

A shallow embedding of the three translation units and the properties of the
specification that hold (or fail) on them.

* `std::string` is a Lean `String`; `operator+` on strings is `++`.
* The characters sent to `std::cout` are accumulated in `World.cout`;
  `std::endl` sends the single character `'\n'` (the flush is not observable
  in the transcript).
* `Config::settings`, a `std::map<std::string, std::string>`, is the list of
  its entries in iteration order, i.e. strictly ascending by key, bundled with
  that ordering invariant.
* A `void` function is a state transformer `World → World`; a function with a
  return value yields the value paired with the final state.
-/

namespace Simple

/-! ## `std::map<std::string, std::string>` -/

/-- Key/value entries of a map, listed in iteration order. -/
abbrev Entries := List (String × String)

/-- Keys of an entry list strictly ascending: the red-black tree invariant of
`std::map` as seen through in-order iteration (`std::less<std::string>`). -/
def Ascending (es : Entries) : Prop :=
  es.Pairwise (fun a b => a.1 < b.1)

/-- Body of `std::map::operator[]` on the entry list: walk to the first entry
whose key is not less than `k` (`lower_bound`); when that entry's key is
equivalent to `k` its value is the result and nothing changes; otherwise (end
reached, or `k` less than that key) an entry `(k, std::string())` is inserted
at that position and the value-initialised, empty string is the result.
Returns the mapped value and the entry list afterwards. -/
def subscript (k : String) : Entries → String × Entries
  | [] => ("", [(k, "")])
  | (k', v) :: rest =>
    if k' < k then
      ((subscript k rest).1, (k', v) :: (subscript k rest).2)
    else if k < k' then
      ("", (k, "") :: (k', v) :: rest)
    else
      (v, (k', v) :: rest)

/-- Every entry after `operator[]` is an old entry or the fresh `(k, "")`. -/
theorem mem_subscript_cases (k : String) (es : Entries) (e : String × String)
    (h : e ∈ (subscript k es).2) : e ∈ es ∨ e = (k, "") := by
  induction es with
  | nil =>
    right
    simpa [subscript] using h
  | cons hd rest ih =>
    obtain ⟨k', v⟩ := hd
    unfold subscript at h
    split_ifs at h with h1 h2
    · rcases List.mem_cons.mp h with h | h
      · exact Or.inl (h ▸ List.mem_cons_self _ _)
      · rcases ih h with h | h
        · exact Or.inl (List.mem_cons_of_mem _ h)
        · exact Or.inr h
    · rcases List.mem_cons.mp h with h | h
      · exact Or.inr h
      · exact Or.inl h
    · exact Or.inl h

/-- The ordering invariant of the map survives `operator[]`. -/
theorem ascending_subscript (k : String) (es : Entries) (h : Ascending es) :
    Ascending (subscript k es).2 := by
  induction es with
  | nil => simp [subscript, Ascending]
  | cons hd rest ih =>
    obtain ⟨k', v⟩ := hd
    have hr : Ascending rest := (List.pairwise_cons.mp h).2
    have hhd : ∀ e ∈ rest, k' < e.1 := (List.pairwise_cons.mp h).1
    unfold subscript
    split_ifs with h1 h2
    · refine List.pairwise_cons.mpr ⟨?_, ih hr⟩
      intro e he
      rcases mem_subscript_cases k rest e he with he | he
      · exact hhd e he
      · rw [he]; exact h1
    · refine List.pairwise_cons.mpr ⟨?_, h⟩
      intro e he
      rcases List.mem_cons.mp he with he | he
      · rw [he]; exact h2
      · exact lt_trans h2 (hhd e he)
    · exact h

/-- A `std::map<std::string, std::string>` object. -/
structure StdMap where
  /-- The entries in iteration order. -/
  entries : Entries
  /-- Keys are unique and ascending. -/
  ascending : Ascending entries

namespace StdMap

/-- A default-constructed map. -/
def empty : StdMap := ⟨[], List.Pairwise.nil⟩

/-- The member `std::map::size`. -/
def size (m : StdMap) : Nat := m.entries.length

/-- The keys of the map, in iteration order. -/
def keys (m : StdMap) : List String := m.entries.map Prod.fst

/-- The member `std::map::operator[]`: the mapped value for `k` (a fresh empty string is
inserted first when `k` has no entry) and the map afterwards. -/
def index (m : StdMap) (k : String) : String × StdMap :=
  ((subscript k m.entries).1, ⟨(subscript k m.entries).2, ascending_subscript k m.entries m.ascending⟩)

end StdMap

/-! ## Program state -/

/-- The state the program acts on: the characters written to `std::cout` so
far and the static member `Config::settings`. config.h only declares that
member, so its value is part of the state and every statement about
`Config::get` ranges over all maps it may hold. -/
structure World where
  /-- Transcript of standard output. -/
  cout : String
  /-- The static data member `Config::settings`. -/
  settings : StdMap

/-- Process start: nothing written yet, `Config::settings` default-constructed. -/
def World.initial : World := ⟨"", StdMap.empty⟩

/-- The call `std::cout << s` for a string `s`. -/
def put (s : String) (w : World) : World :=
  { w with cout := w.cout ++ s }

/-- The call `std::cout << std::endl`. -/
def endl (w : World) : World :=
  put "\n" w

/-! ## utils.h -/

/-- Source `Utils::printMessage`: `std::cout << "[Utils] " << msg << std::endl;` -/
def Utils.printMessage (msg : String) (w : World) : World :=
  endl (put msg (put "[Utils] " w))

/-! ## config.h -/

/-- Source `Config::load`: `Utils::printMessage("Loading config from: " + filename);` -/
def Config.load (filename : String) (w : World) : World :=
  Utils.printMessage ("Loading config from: " ++ filename) w

/-- Source `Config::get`: `return settings[key];` (the result is returned by value). -/
def Config.get (key : String) (w : World) : String × World :=
  ((w.settings.index key).1, { w with settings := (w.settings.index key).2 })

/-! ## main.cpp -/

/-- The vector `items` of `main`. -/
def items : List String := ["apple", "banana", "cherry"]

/-- The function `main`: the range-for over `items` writing
`"Item: " << item << std::endl`, then the two calls, then `return 0`.
Returns the exit status and the final state. -/
def main (w : World) : Int × World :=
  let w1 := items.foldl (fun acc item => endl (put item (put "Item: " acc))) w
  let w2 := Utils.printMessage "Hello from main!" w1
  let w3 := Config.load "config.ini" w2
  (0, w3)

/-! ## Reading the transcript -/

/-- The text added to the transcript between two snapshots of it. -/
def written (before after : String) : String :=
  ⟨after.data.drop before.data.length⟩

/-- Number of line terminators in a text. -/
def lineTerminators (s : String) : Nat :=
  s.data.count '\n'

/-- A text is exactly one line: it has exactly one line terminator, and that
terminator is its last character. -/
def IsSingleLine (s : String) : Prop :=
  lineTerminators s = 1 ∧ s.data.getLast? = some '\n'

/-- A state used to exercise the operations: some output already written and
two settings present. -/
def World.sample : World :=
  ⟨"boot\n", ⟨[("host", "localhost"), ("port", "8080")], by simp [Ascending]; decide⟩⟩

/-! ## Facts about `operator[]` -/

/-- For a key with an entry, `operator[]` yields that entry's value and leaves
the entries untouched. -/
theorem subscript_of_mem (k v : String) (es : Entries) (ha : Ascending es)
    (h : (k, v) ∈ es) : subscript k es = (v, es) := by
  induction es with
  | nil => simp at h
  | cons hd rest ih =>
    obtain ⟨k', v'⟩ := hd
    have hr : Ascending rest := (List.pairwise_cons.mp ha).2
    have hhd : ∀ e ∈ rest, k' < e.1 := (List.pairwise_cons.mp ha).1
    unfold subscript
    rcases List.mem_cons.mp h with h | h
    · obtain ⟨hk, hv⟩ := Prod.mk.inj h
      subst hk hv
      simp
    · have hlt : k' < k := hhd (k, v) h
      simp [hlt, ih hr h]

/-- For a key without an entry, `operator[]` yields the empty string. -/
theorem subscript_fst_of_not_mem (k : String) (es : Entries)
    (h : k ∉ es.map Prod.fst) : (subscript k es).1 = "" := by
  induction es with
  | nil => rfl
  | cons hd rest ih =>
    obtain ⟨k', v'⟩ := hd
    have hne : k ≠ k' := fun e => h (by simp [e])
    have hrest : k ∉ rest.map Prod.fst := fun e => h (by simp at e ⊢; exact Or.inr e)
    unfold subscript
    split_ifs with h1 h2
    · exact ih hrest
    · rfl
    · exact absurd (le_antisymm (not_lt.mp h1) (not_lt.mp h2)) hne

/-- For a key without an entry, the entries after `operator[]` are the old
ones together with `(k, "")`. -/
theorem mem_subscript_of_not_mem (k : String) (es : Entries)
    (h : k ∉ es.map Prod.fst) (e : String × String) :
    e ∈ (subscript k es).2 ↔ e = (k, "") ∨ e ∈ es := by
  induction es with
  | nil => simp [subscript]
  | cons hd rest ih =>
    obtain ⟨k', v'⟩ := hd
    have hne : k ≠ k' := fun e => h (by simp [e])
    have hrest : k ∉ rest.map Prod.fst := fun e => h (by simp at e ⊢; exact Or.inr e)
    unfold subscript
    split_ifs with h1 h2
    · simp only [List.mem_cons, ih hrest]
      tauto
    · simp only [List.mem_cons]
    · exact absurd (le_antisymm (not_lt.mp h1) (not_lt.mp h2)) hne

/-- For a key without an entry, `operator[]` adds exactly one entry. -/
theorem length_subscript_of_not_mem (k : String) (es : Entries)
    (h : k ∉ es.map Prod.fst) : (subscript k es).2.length = es.length + 1 := by
  induction es with
  | nil => rfl
  | cons hd rest ih =>
    obtain ⟨k', v'⟩ := hd
    have hne : k ≠ k' := fun e => h (by simp [e])
    have hrest : k ∉ rest.map Prod.fst := fun e => h (by simp at e ⊢; exact Or.inr e)
    unfold subscript
    split_ifs with h1 h2
    · simp [ih hrest]
    · simp
    · exact absurd (le_antisymm (not_lt.mp h1) (not_lt.mp h2)) hne

/-- A key of the map has an entry. -/
theorem exists_entry_of_mem_keys (k : String) (es : Entries)
    (h : k ∈ es.map Prod.fst) : ∃ v, (k, v) ∈ es := by
  obtain ⟨e, he, hk⟩ := List.mem_map.mp h
  exact ⟨e.2, by rw [← hk]; exact he⟩

/-- Two maps with the same entries are the same map. -/
theorem StdMap.ext_entries (a b : StdMap) (h : a.entries = b.entries) : a = b := by
  cases a; cases b; cases h; rfl

/-- Appending to the transcript and reading back what was added. -/
theorem written_append (t o : String) : written t (t ++ o) = o := by
  simp [written, String.data_append]

/-- What one `Utils::printMessage` call does to the transcript. -/
theorem printMessage_cout (m : String) (w : World) :
    (Utils.printMessage m w).cout = w.cout ++ ("[Utils] " ++ m ++ "\n") := by
  simp [Utils.printMessage, endl, put, String.append_assoc]

/-! ## The entry point -/

/-- C1: running `main` from an empty transcript and an empty settings mapping
leaves on standard output exactly the five lines "Item: apple", "Item: banana",
"Item: cherry", "[Utils] Hello from main!", "[Utils] Loading config from:
config.ini", in that order, each followed by one line terminator, and nothing
else. -/
theorem main_transcript :
    (main World.initial).2.cout =
      "Item: apple\nItem: banana\nItem: cherry\n[Utils] Hello from main!\n[Utils] Loading config from: config.ini\n" := by
  decide

/-- C8: `main` takes no argument besides the state it runs in, is a total
function of that state, and its exit status is 0 whatever the state: no path
returns anything else. -/
theorem main_exit_status (w : World) : (main w).1 = 0 := by
  rfl

/-! ## `Utils::printMessage` -/

/-- C5: for every string `m` and prior state, `Utils::printMessage(m)` leaves
the transcript equal to the prior transcript followed by `"[Utils] " + m`
followed by one line terminator, and changes nothing else (the settings are
the same); being `void` it is a plain state transformer. -/
theorem printMessage_effect (m : String) (w : World) :
    (Utils.printMessage m w).cout = w.cout ++ ("[Utils] " ++ m) ++ "\n" ∧
      (Utils.printMessage m w).settings = w.settings := by
  refine ⟨?_, rfl⟩
  rw [printMessage_cout, String.append_assoc, String.append_assoc, String.append_assoc]

/-- C6, as stated, fails: for the message `"a\nb"` the output written by one
call is not a single line (it holds two line terminators). -/
theorem printMessage_multiline_not_single_line :
    ¬ IsSingleLine (written World.initial.cout (Utils.printMessage "a\nb" World.initial).cout) := by
  unfold IsSingleLine
  decide

/-- C6, amended: for every string `m` (the empty string included) and every
prior state, the output written by one call `Utils::printMessage(m)` is
`"[Utils] " + m` followed by one line terminator, and that output is exactly
one line (exactly one line terminator, located at its end) if and only if `m`
itself contains no line terminator. -/
theorem printMessage_single_line_iff (m : String) (w : World) :
    written w.cout (Utils.printMessage m w).cout = "[Utils] " ++ m ++ "\n" ∧
      (IsSingleLine (written w.cout (Utils.printMessage m w).cout) ↔ '\n' ∉ m.data) := by
  have hw : written w.cout (Utils.printMessage m w).cout = "[Utils] " ++ m ++ "\n" := by
    rw [printMessage_cout, written_append]
  refine ⟨hw, ?_⟩
  rw [hw]
  have hp : List.count '\n' "[Utils] ".data = 0 := by decide
  have hn : List.count '\n' "\n".data = 1 := by decide
  have hlast : ("[Utils] " ++ m ++ "\n").data.getLast? = some '\n' := by
    rw [String.data_append]
    exact List.getLast?_concat _
  have hc : '\n' ∉ m.data ↔ List.count '\n' m.data = 0 := List.count_eq_zero.symm
  have hs : IsSingleLine ("[Utils] " ++ m ++ "\n") ↔
      lineTerminators ("[Utils] " ++ m ++ "\n") = 1 :=
    ⟨fun h => h.1, fun h => ⟨h, hlast⟩⟩
  rw [hs, hc]
  simp only [lineTerminators, String.data_append, List.count_append, hp, hn]
  omega

/-! ## `Config::load` -/

/-- Calls of `Config::load` never touch `Config::settings`, however many there are. -/
theorem settings_foldl_load (fs : List String) (w : World) :
    (fs.foldl (fun acc f => Config.load f acc) w).settings = w.settings := by
  induction fs generalizing w with
  | nil => rfl
  | cons f rest ih =>
    rw [List.foldl_cons, ih]
    rfl

/-- C4: for every string `f` and prior state, `Config::load(f)` does what the
single call `Utils::printMessage("Loading config from: " + f)` does, so it
appends exactly `"[Utils] Loading config from: " + f` plus a line terminator
to the transcript, and it has no other effect: the settings mapping after the
call is the one before. -/
theorem load_effect (f : String) (w : World) :
    Config.load f w = Utils.printMessage ("Loading config from: " ++ f) w ∧
      (Config.load f w).cout = w.cout ++ ("[Utils] Loading config from: " ++ f) ++ "\n" ∧
      (Config.load f w).settings = w.settings := by
  refine ⟨rfl, ?_, rfl⟩
  have hp : "[Utils] " ++ "Loading config from: " = "[Utils] Loading config from: " := by
    decide
  unfold Config.load
  rw [printMessage_cout, ← hp]
  simp only [String.append_assoc]

/-- C7: for every state, every finite list of filenames `fs` (repeats
allowed) and every key `k`, `Config::get(k)` after `Config::load` has been
called on each element of `fs` in order returns what `Config::get(k)` returns
on the state before those calls. -/
theorem get_after_loads (fs : List String) (k : String) (w : World) :
    (Config.get k (fs.foldl (fun acc f => Config.load f acc) w)).1 = (Config.get k w).1 := by
  unfold Config.get
  rw [settings_foldl_load]

/-! ## `Config::get` -/

/-- C2: for every state and every key `k` that is not a key of the settings
mapping, `Config::get(k)` returns the empty string; `Config::get` is a total
function with no error outcome. -/
theorem get_absent (k : String) (w : World) (h : k ∉ w.settings.keys) :
    (Config.get k w).1 = "" :=
  subscript_fst_of_not_mem k w.settings.entries h

/-- C2 at a concrete state: `"user"` is not among the keys `host`, `port`. -/
theorem get_absent_witness :
    "user" ∉ World.sample.settings.keys ∧ (Config.get "user" World.sample).1 = "" :=
  ⟨by decide, get_absent "user" World.sample (by decide)⟩

/-- C3: for every state, key `k` and value `v` such that the settings mapping
maps `k` to `v`, `Config::get(k)` returns `v`. -/
theorem get_present (k v : String) (w : World) (h : (k, v) ∈ w.settings.entries) :
    (Config.get k w).1 = v := by
  show (subscript k w.settings.entries).1 = v
  rw [subscript_of_mem k v w.settings.entries w.settings.ascending h]

/-- C3 at a concrete state: `port` is mapped to `8080`. -/
theorem get_present_witness :
    ("port", "8080") ∈ World.sample.settings.entries ∧
      (Config.get "port" World.sample).1 = "8080" :=
  ⟨by decide, get_present "port" "8080" World.sample (by decide)⟩

/-- C9: `Config::get` is not read-only on the mapping. For a key `k` absent
from the settings, the mapping after `Config::get(k)` holds exactly the old
entries and the entry `k ↦ ""`, one more key than before; for a key `k`
present in the settings, the mapping after `Config::get(k)` is the mapping
before. -/
theorem get_mapping_effect (k : String) (w : World) :
    (k ∉ w.settings.keys →
        (∀ e, e ∈ (Config.get k w).2.settings.entries ↔ e = (k, "") ∨ e ∈ w.settings.entries) ∧
          (Config.get k w).2.settings.size = w.settings.size + 1) ∧
      (k ∈ w.settings.keys → (Config.get k w).2.settings = w.settings) := by
  refine ⟨fun h => ⟨fun e => mem_subscript_of_not_mem k w.settings.entries h e,
    length_subscript_of_not_mem k w.settings.entries h⟩, fun h => ?_⟩
  obtain ⟨v, hv⟩ := exists_entry_of_mem_keys k w.settings.entries h
  apply StdMap.ext_entries
  show (subscript k w.settings.entries).2 = w.settings.entries
  rw [subscript_of_mem k v w.settings.entries w.settings.ascending hv]

/-- C9 at a concrete state: looking up the absent `user` grows the two-entry
mapping to three entries, looking up the present `host` leaves it as it was. -/
theorem get_mapping_effect_witness :
    ("user" ∉ World.sample.settings.keys ∧
        (Config.get "user" World.sample).2.settings.size = 3) ∧
      ("host" ∈ World.sample.settings.keys ∧
        (Config.get "host" World.sample).2.settings = World.sample.settings) :=
  ⟨⟨by decide, ((get_mapping_effect "user" World.sample).1 (by decide)).2⟩,
    ⟨by decide, (get_mapping_effect "host" World.sample).2 (by decide)⟩⟩

/-- C10: lookups never disturb later lookups. For every state and all keys `k`
and `k2` (equal or different), `Config::get(k2)` after `Config::get(k)` returns
what `Config::get(k2)` returns on the state before; with `k2 = k`, calling
`Config::get(k)` twice returns the same value both times. -/
theorem get_get (k k2 : String) (w : World) :
    (Config.get k2 (Config.get k w).2).1 = (Config.get k2 w).1 := by
  by_cases hk : k ∈ w.settings.keys
  · obtain ⟨v, hv⟩ := exists_entry_of_mem_keys k w.settings.entries hk
    show (subscript k2 (subscript k w.settings.entries).2).1 = (subscript k2 w.settings.entries).1
    rw [subscript_of_mem k v w.settings.entries w.settings.ascending hv]
  · have hmem := mem_subscript_of_not_mem k w.settings.entries hk
    have hasc := ascending_subscript k w.settings.entries w.settings.ascending
    show (subscript k2 (subscript k w.settings.entries).2).1 = (subscript k2 w.settings.entries).1
    by_cases hk2 : k2 ∈ w.settings.keys
    · obtain ⟨v, hv⟩ := exists_entry_of_mem_keys k2 w.settings.entries hk2
      rw [subscript_of_mem k2 v _ hasc ((hmem (k2, v)).mpr (Or.inr hv)),
        subscript_of_mem k2 v _ w.settings.ascending hv]
    · rw [subscript_fst_of_not_mem k2 w.settings.entries hk2]
      by_cases heq : k2 = k
      · subst heq
        rw [subscript_of_mem k2 "" _ hasc ((hmem (k2, "")).mpr (Or.inl rfl))]
      · apply subscript_fst_of_not_mem
        intro hin
        obtain ⟨v, hv⟩ := exists_entry_of_mem_keys k2 _ hin
        rcases (hmem (k2, v)).mp hv with h | h
        · exact heq (Prod.mk.inj h).1
        · exact hk2 (List.mem_map.mpr ⟨(k2, v), h, rfl⟩)

end Simple
